import Mathlib

/-!
Verification of the Oxen repository engine specification against a shallow
embedding of its Rust sources. Each section embeds one subsystem:

* `Oxen.DataType` — `src/lib/src/model/schema/data_type.rs`
* `Oxen.Schema` — `src/lib/src/model/schema.rs`
* versioner — `src/lib/src/core/index/versioner.rs`
* commit orchestration — `src/lib/src/api/local/commits.rs`
* tabular join-compare — `src/lib/src/api/local/compare/join_compare.rs`
* transfer chunking — `src/lib/src/api/remote/commits.rs`
* push ordering — `src/lib/src/index/indexer.rs`
* schema lookup — `src/lib/src/core/index/schema_reader.rs`

Functions of the crate that are not part of the provided sources (the
content hasher, the tree-db binary search, the staging `unstage`) are
modelled from the specification; each such definition says so in its doc
comment.
-/

set_option maxHeartbeats 1000000

namespace Oxen

/-! ## DataType (`model/schema/data_type.rs`) -/

/-- The closed dtype lattice, embedding Rust `enum DataType`. -/
inductive DataType where
  | Boolean
  | UInt8
  | UInt16
  | UInt32
  | UInt64
  | Int8
  | Int16
  | Int32
  | Int64
  | Float32
  | Float64
  | Str
  | Date
  | Time
  | List (t : DataType)
  | Null
  | Unknown
deriving DecidableEq, Repr

/-- Embeds `DataType::from_string`. -/
def DataType.from_string (s : String) : DataType :=
  match s with
  | "bool" => .Boolean
  | "uint8" => .UInt8
  | "u16" => .UInt16
  | "u32" => .UInt32
  | "u64" => .UInt64
  | "i8" => .Int8
  | "i16" => .Int16
  | "int" => .Int32
  | "i32" => .Int32
  | "i64" => .Int64
  | "float" => .Float32
  | "f32" => .Float32
  | "double" => .Float64
  | "f64" => .Float64
  | "str" => .Str
  | "date" => .Date
  | "time" => .Time
  | "null" => .Null
  | _ => .Unknown

/-- Embeds `DataType::as_str`. -/
def DataType.as_str : DataType → String
  | .Boolean => "bool"
  | .UInt8 => "uint8"
  | .UInt16 => "u16"
  | .UInt32 => "u32"
  | .UInt64 => "u64"
  | .Int8 => "i8"
  | .Int16 => "i16"
  | .Int32 => "i32"
  | .Int64 => "i64"
  | .Float32 => "f32"
  | .Float64 => "f64"
  | .Str => "str"
  | .Date => "date"
  | .Time => "time"
  | .List _ => "list"
  | .Null => "null"
  | .Unknown => "?"

/-! ## Schema hashing (`model/schema.rs`) -/

/-- A schema field, embedding Rust `Field { name, dtype }`. -/
structure Field where
  name : String
  dtype : String
deriving DecidableEq, Repr

/-- A schema, embedding Rust `Schema { name, hash, fields }`. -/
structure Schema where
  name : Option String
  hash : String
  fields : List Field
deriving DecidableEq, Repr

/-- Embeds `Schema::hash_fields`, parameterized by the content hasher
`hash_buffer` (in `util/hasher`, outside the provided sources): each
field contributes `name ++ dtype`, the buffers are joined with the empty
separator, and the result is hashed. -/
def Schema.hash_fields (hash_buffer : String → String) (fields : List Field) : String :=
  hash_buffer (String.join (fields.map (fun f => f.name ++ f.dtype)))

/-- Embeds `Schema::new`. -/
def Schema.new (hash_buffer : String → String) (name : String) (fields : List Field) : Schema :=
  { name := some name
    hash := Schema.hash_fields hash_buffer fields
    fields := fields }

/-- Embeds `Schema::from_fields`. -/
def Schema.from_fields (hash_buffer : String → String) (fields : List Field) : Schema :=
  { name := none
    hash := Schema.hash_fields hash_buffer fields
    fields := fields }

/-! ## Versioner (`core/index/versioner.rs`) -/

/-- A committed entry, embedding the fields of `CommitEntry` used by the
versioner: its repository-relative path and its content hash. -/
structure CommitEntry where
  path : String
  hash : String
deriving DecidableEq, Repr

/-- The version path of an entry. Modelled from the spec: a FileEntry's
bytes live at `versions/<hash[0:2]>/<hash[2:]>/data` (`util::fs::version_path`
is outside the provided sources). -/
def version_path (entry : CommitEntry) : String :=
  "versions/" ++ (entry.hash.take 2) ++ "/" ++ (entry.hash.drop 2) ++ "/data"

/-- The file-system facts the versioner consults: whether a path exists and
what `util::hasher::hash_file_contents` returns there. -/
structure FsView where
  pathExists : String → Bool
  hashContents : String → Except String String

/-- Embeds `versioner::path_hash_is_different`: true when hashing the path
succeeds and yields a hash different from the entry's; false when hashing
fails. -/
def path_hash_is_different (fs : FsView) (entry : CommitEntry) (path : String) : Bool :=
  match fs.hashContents path with
  | .ok h => h != entry.hash
  | .error _ => false

/-- Embeds `versioner::should_copy_entry`. -/
def should_copy_entry (fs : FsView) (entry : CommitEntry) (path : String) : Bool :=
  !fs.pathExists path || path_hash_is_different fs entry path

/-- Observable side effects of `backup_file`. -/
inductive FsAction where
  | copy (src dst : String)
  | setTimestamps (path : String)
deriving DecidableEq, Repr

/-- Embeds `versioner::backup_file`: when `should_copy_entry` holds for the
entry's version path it copies the working file there and refreshes the
entry's timestamps; otherwise it performs nothing. -/
def backup_file (fs : FsView) (entry : CommitEntry) (filepath : String) : List FsAction :=
  if should_copy_entry fs entry (version_path entry) then
    [FsAction.copy filepath (version_path entry), FsAction.setTimestamps filepath]
  else
    []

/-! ## Commit orchestration (`api/local/commits.rs`) -/

/-- A commit record; only the fields the embedded operations inspect. -/
structure Commit where
  id : String
  parent_ids : List String
deriving DecidableEq, Repr

/-- The staging state visible to `api::local::commits::commit`: the staged
entries held in the staging tables. -/
structure StagingState where
  staged : List String
deriving DecidableEq, Repr

/-- Modelled from the spec: `Stager::unstage` (the stager lives outside the
provided sources) truncates the staging tables — `clear()` per §4.3. -/
def unstage (st : StagingState) : StagingState :=
  { st with staged := [] }

/-- Embeds `api::local::commits::commit`: run the commit writer; on error
the `?` operator returns before `stager.unstage()` runs, leaving staging
untouched; on success the staging tables are cleared and the new commit is
returned. The commit writer itself is outside the provided sources, so its
outcome is a parameter. -/
def commit (writerResult : Except String Commit) (st : StagingState) :
    StagingState × Except String Commit :=
  match writerResult with
  | .error e => (st, .error e)
  | .ok c => (unstage st, .ok c)

/-! ## Tabular join-compare (`api/local/compare/join_compare.rs`) -/

/-- The synthetic status column name, embedding `DIFF_STATUS_COL`. -/
def DIFF_STATUS_COL : String := ".oxen.diff.status"

/-- Embeds `DIFF_STATUS_ADDED`. -/
def DIFF_STATUS_ADDED : String := "added"

/-- Embeds `DIFF_STATUS_REMOVED`. -/
def DIFF_STATUS_REMOVED : String := "removed"

/-- Embeds `DIFF_STATUS_MODIFIED`. -/
def DIFF_STATUS_MODIFIED : String := "modified"

/-- Embeds `DIFF_STATUS_UNCHANGED`. -/
def DIFF_STATUS_UNCHANGED : String := "unchanged"

/-- The dataframe cell values the status closure inspects, embedding the
relevant cases of polars `AnyValue`: the join's null marker and non-null
values. -/
inductive AnyValue where
  | null
  | str (s : String)
  | int (n : Int)
deriving DecidableEq, Repr

/-- Embeds `join_compare::test_function`, the per-row status classifier:
null left key means the key exists only on the right (added); null right
key means it exists only on the left (removed); with targets, differing
target hashes mean modified; everything else is unchanged. -/
def test_function (key_left key_right target_hash_left target_hash_right : Option AnyValue)
    (has_targets : Bool) : String :=
  if key_left = some AnyValue.null then DIFF_STATUS_ADDED
  else if key_right = some AnyValue.null then DIFF_STATUS_REMOVED
  else if !has_targets then DIFF_STATUS_UNCHANGED
  else
    match target_hash_left, target_hash_right with
    | some l, some r => if l ≠ r then DIFF_STATUS_MODIFIED else DIFF_STATUS_UNCHANGED
    | _, _ => DIFF_STATUS_UNCHANGED

/-- One row of the outer join on the key-hash column: the struct fields the
status closure extracts (`key.left`, `key.right`, `_targets_hash.left`,
`_targets_hash.right`). -/
structure JoinedRow where
  key_left : Option AnyValue
  key_right : Option AnyValue
  target_hash_left : Option AnyValue
  target_hash_right : Option AnyValue
deriving DecidableEq, Repr

/-- The status `join_compare::compare` assigns to a joined row via
`test_function`. -/
def row_status (has_targets : Bool) (r : JoinedRow) : String :=
  test_function r.key_left r.key_right r.target_hash_left r.target_hash_right has_targets

/-- The row-level pipeline of `join_compare::compare`: tag every joined row
with its status column, then filter out rows whose status is
`DIFF_STATUS_UNCHANGED` (lines 77–118). -/
def compare_statuses (has_targets : Bool) (rows : List JoinedRow) : List (JoinedRow × String) :=
  (rows.map (fun r => (r, row_status has_targets r))).filter
    (fun p => p.2 != DIFF_STATUS_UNCHANGED)

/-- Column classification between the two dataframes; embeds the fields of
`SchemaDiff` (declared in the compare module's root, absent from the
provided sources) exactly as `join_compare.rs` consumes them. -/
structure SchemaDiff where
  added_cols : List String
  removed_cols : List String
  unchanged_cols : List String
deriving DecidableEq, Repr

/-- Embeds Rust `str::ends_with`. -/
def ends_with (s pat : String) : Bool :=
  pat.data.isSuffixOf s.data

/-- Helper for `trim_end_matches`: repeatedly strip the pattern from the
end of the character list. -/
def trimEndList (pat s : List Char) : List Char :=
  if h : pat ≠ [] ∧ pat <:+ s ∧ s ≠ [] then
    trimEndList pat (s.take (s.length - pat.length))
  else s
termination_by s.length
decreasing_by
  have h1 : pat.length ≤ s.length := h.2.1.length_le
  have h2 : 0 < pat.length := List.length_pos.mpr h.1
  have h3 : 0 < s.length := List.length_pos.mpr h.2.2
  simp only [List.length_take]
  omega

/-- Embeds Rust `str::trim_end_matches`: removes all trailing occurrences
of the pattern. -/
def trim_end_matches (s pat : String) : String :=
  ⟨trimEndList pat.data s.data⟩

/-- Embeds `join_compare::get_output_columns`: keys first, then per-target
columns (suffixed by which side carries them), then the display columns
that survive the side filter, then the synthetic status column. -/
def get_output_columns (keys targets display : List String) (sd : SchemaDiff) : List String :=
  keys
    ++ targets.flatMap (fun t =>
      if sd.added_cols.contains t then [t ++ ".right"]
      else if sd.removed_cols.contains t then [t ++ ".left"]
      else [t ++ ".left", t ++ ".right"])
    ++ display.flatMap (fun c =>
      (if ends_with c ".left" then
        let stripped := trim_end_matches c ".left"
        if sd.removed_cols.contains stripped || sd.unchanged_cols.contains stripped then [c]
        else []
      else [])
      ++
      (if ends_with c ".right" then
        let stripped := trim_end_matches c ".right"
        if sd.added_cols.contains stripped || sd.unchanged_cols.contains stripped then [c]
        else []
      else []))
    ++ [DIFF_STATUS_COL]

/-- The output column list as the specification sentence behind claim C6
describes it: a single merged column for a target present on both sides,
and a `.left`/`.right` pair for a target only one side has. Display and
status columns as in the code. -/
def claimed_output_columns (keys targets display : List String) (sd : SchemaDiff) : List String :=
  keys
    ++ targets.flatMap (fun t =>
      if sd.added_cols.contains t then [t ++ ".left", t ++ ".right"]
      else if sd.removed_cols.contains t then [t ++ ".left", t ++ ".right"]
      else [t])
    ++ display.flatMap (fun c =>
      (if ends_with c ".left" then
        let stripped := trim_end_matches c ".left"
        if sd.removed_cols.contains stripped || sd.unchanged_cols.contains stripped then [c]
        else []
      else [])
      ++
      (if ends_with c ".right" then
        let stripped := trim_end_matches c ".right"
        if sd.added_cols.contains stripped || sd.unchanged_cols.contains stripped then [c]
        else []
      else []))
    ++ [DIFF_STATUS_COL]

/-- Lexicographic ascending comparison of key tuples. -/
def lexLe : List Int → List Int → Bool
  | [], _ => true
  | _ :: _, [] => false
  | a :: as, b :: bs => if a < b then true else if b < a then false else lexLe as bs

/-- Modelled from the spec: the tabular library's `DataFrame::sort` (an
external collaborator) called by `join_compare::compare` with an all-false
`descending` vector orders the rows ascending by the key columns; rows are
modelled by their key tuples. -/
def compare_sort_rows (rows : List (List Int)) : List (List Int) :=
  rows.mergeSort lexLe

/-- Embeds the `descending` vector `join_compare::compare` builds for the
sort: one `false` per key column. -/
def compare_sort_descending (keys : List String) : List Bool :=
  keys.map (fun _ => false)

/-- Embeds the argument guard at the head of `join_compare::compare`:
targets without any key are rejected. -/
def compare_guard (targets keys : List String) : Except String Unit :=
  if ¬ targets.isEmpty ∧ keys.isEmpty then
    .error "Must specifiy at least one key column if specifying target columns."
  else .ok ()

/-- Modelled from the spec: `api::local::compare::compare_files` (the
compare module root, absent from the provided sources) prepares keys and
targets for `join_compare::compare` — "If K and T are empty, fall back to
comparing all non-key columns as targets" and return a diff result;
otherwise the guard of `join_compare::compare` applies. Returns the
`(keys, targets)` configuration the diff is computed with. -/
def compare_files (all_columns keys targets : List String) :
    Except String (List String × List String) :=
  if keys.isEmpty && targets.isEmpty then
    .ok (keys, all_columns.filter (fun c => !(keys.contains c)))
  else
    match compare_guard targets keys with
    | .error e => .error e
    | .ok _ => .ok (keys, targets)

/-! ## Transfer chunking (`api/remote/commits.rs`) -/

/-- The chunk size `post_data_to_server` fixes: `1024 * 1024 * 4` bytes. -/
def chunk_size_const : Nat := 1024 * 1024 * 4

/-- Embeds Rust `slice::chunks`: successive pieces of `size` elements, the
final piece holding the remainder. -/
def chunksOf (size : Nat) (l : List α) : List (List α) :=
  match l, size with
  | [], _ => []
  | _ :: _, 0 => []
  | x :: xs, n + 1 => (x :: xs).take (n + 1) :: chunksOf (n + 1) ((x :: xs).drop (n + 1))
termination_by l.length
decreasing_by
  simp only [List.length_drop, List.length_cons]
  omega

/-- Embeds `struct ChunkParams`. -/
structure ChunkParams where
  chunk_num : Nat
  total_chunks : Nat
  total_size : Nat
  num_retries : Nat
deriving DecidableEq, Repr

/-- The uploads the transfer layer issues: a single tarball post, or one
chunk post carrying its parameters in the request uri and the raw chunk
bytes as the body. -/
inductive UploadReq where
  | single (commit_id : String) (body : List Nat)
  | chunk (uri : String) (body : List Nat)
deriving DecidableEq, Repr

/-- Embeds the `format!` in `upload_data_chunk_to_server` that builds the
upload uri with the chunk parameters in the query string. -/
def upload_chunk_uri (commit_id : String) (params : ChunkParams) (hash : String)
    (is_compressed : Bool) (maybe_filename : String) : String :=
  "/commits/" ++ commit_id ++ "/upload_chunk?chunk_num=" ++ toString params.chunk_num
    ++ "&total_size=" ++ toString params.total_size
    ++ "&hash=" ++ hash
    ++ "&total_chunks=" ++ toString params.total_chunks
    ++ "&is_compressed=" ++ (if is_compressed then "true" else "false")
    ++ maybe_filename

/-- Embeds the `maybe_filename` computation of `upload_data_chunk_to_server`:
uncompressed uploads append the url-encoded filename (`urlenc` stands for
the external `urlencoding::encode`); the `expect` panic on a missing
filename is modelled as `none`. -/
def maybe_filename_param (urlenc : String → String) (is_compressed : Bool)
    (filename : Option String) : Option String :=
  if !is_compressed then filename.map (fun f => "&filename=" ++ urlenc f)
  else some ""

/-- Embeds `upload_data_to_server_in_chunks`: split the payload with
`slice::chunks`, hash the whole payload once (`hash_buffer`, outside the
provided sources, is a parameter), and post every chunk with its index,
the chunk count, the total size, the payload hash and the compression flag
in the uri. -/
def upload_data_to_server_in_chunks (hash_buffer : List Nat → String)
    (urlenc : String → String) (commit_id : String) (buffer : List Nat) (chunk_size : Nat)
    (is_compressed : Bool) (filename : Option String) : Option (List UploadReq) :=
  let chunks := chunksOf chunk_size buffer
  let hash := hash_buffer buffer
  match maybe_filename_param urlenc is_compressed filename with
  | none => none
  | some mf =>
    some (chunks.enum.map (fun p =>
      UploadReq.chunk
        (upload_chunk_uri commit_id
          { chunk_num := p.1
            total_chunks := chunks.length
            total_size := buffer.length
            num_retries := 3 }
          hash is_compressed mf)
        p.2))

/-- Embeds `post_data_to_server`: payloads larger than 4 MiB are chunked
at exactly 4 MiB, anything else goes up as one single tarball post. -/
def post_data_to_server (hash_buffer : List Nat → String) (urlenc : String → String)
    (commit_id : String) (buffer : List Nat) (is_compressed : Bool)
    (filename : Option String) : Option (List UploadReq) :=
  if buffer.length > chunk_size_const then
    upload_data_to_server_in_chunks hash_buffer urlenc commit_id buffer chunk_size_const
      is_compressed filename
  else
    some [UploadReq.single commit_id buffer]

/-! ## Push ordering (`index/indexer.rs`) -/

/-- The remote-mutating operations a push performs, in order: posting a
commit record with its metadata tarball (`post_commit_to_server`), pushing
a commit's entry content (`push_entries`), and updating the remote branch. -/
inductive PushEvent where
  | postCommit (commit_id : String)
  | pushEntries (commit_id : String)
  | updateBranch (branch : String) (commit_id : String)
deriving DecidableEq, Repr

/-- The environment `Indexer::push` runs against: the local commit store,
the local branch set, the remote's answers to `commit_is_synced`, whether
each `post_commit_to_server` call succeeds, and the entry delta
`read_unsynced_entries` computes between two commits. -/
structure PushEnv where
  commits : String → Option Commit
  has_branch : String → Bool
  remote_ok : Bool
  commit_is_synced : String → Bool
  post_commit_ok : String → Bool
  unsynced_entries : String → String → List String

/-- The parent loop of `rpush_missing_commit_objects`: for every parent id,
look the parent up (a missing parent is a broken link error), recurse via
`rec`, then post this commit and queue it — once per parent, as in the
source. The first component collects the posts issued so far, error or
not. -/
def rpush_parents (env : PushEnv) (rec : Commit → List PushEvent × Except String (List Commit))
    (c : Commit) : List String → List PushEvent × Except String (List Commit)
  | [] => ([], .ok [])
  | pid :: rest =>
    match env.commits pid with
    | none => ([], .error "local parent link broken")
    | some parent =>
      match rec parent with
      | (es1, .error e) => (es1, .error e)
      | (es1, .ok q1) =>
        if env.post_commit_ok c.id then
          match rpush_parents env rec c rest with
          | (es2, .error e) => (es1 ++ [PushEvent.postCommit c.id] ++ es2, .error e)
          | (es2, .ok q2) => (es1 ++ [PushEvent.postCommit c.id] ++ es2, .ok (q1 ++ [c] ++ q2))
        else (es1 ++ [PushEvent.postCommit c.id], .error "could not post commit")

/-- Embeds `Indexer::rpush_missing_commit_objects`: a commit the remote
already has ends the walk and seeds the queue; otherwise the parents are
walked recursively and the commit is posted, a root commit being posted
directly. The unbounded recursion over the commit graph is bounded by
`fuel`. -/
def rpush_missing_commit_objects (env : PushEnv) :
    Nat → Commit → List PushEvent × Except String (List Commit)
  | 0, _ => ([], .error "out of fuel")
  | fuel + 1, c =>
    if env.commit_is_synced c.id then ([], .ok [c])
    else if c.parent_ids = [] then
      if env.post_commit_ok c.id then ([PushEvent.postCommit c.id], .ok [c])
      else ([PushEvent.postCommit c.id], .error "could not post commit")
    else rpush_parents env (fun cc => rpush_missing_commit_objects env fuel cc) c c.parent_ids

/-- Embeds `Indexer::rpush_entries`: walk the unsynced queue in order,
pushing the entry content of every commit whose delta against the previous
one is non-empty (upload failures inside `push_entries` are only logged,
so the walk always completes). -/
def rpush_entries (env : PushEnv) (last : Commit) : List Commit → List PushEvent
  | [] => []
  | c :: rest =>
    (if env.unsynced_entries last.id c.id = [] then [] else [PushEvent.pushEntries c.id])
      ++ rpush_entries env c rest

/-- Embeds `Indexer::push`: check the local branch and the remote, post the
missing commit records, pop the sync base off the queue (an empty queue
would panic in `unwrap`), push the unsynced entry content, and update the
remote branch to the head commit as the final operation. -/
def push (env : PushEnv) (fuel : Nat) (branch : String) (head : Commit) :
    List PushEvent × Except String Unit :=
  if ¬ env.has_branch branch then ([], .error "local branch not found")
  else if ¬ env.remote_ok then ([], .error "remote repo not found")
  else
    match rpush_missing_commit_objects env fuel head with
    | (es1, .error e) => (es1, .error e)
    | (es1, .ok queue) =>
      match queue with
      | [] => (es1, .error "unwrap on empty queue")
      | last :: rest =>
        (es1 ++ rpush_entries env last rest ++ [PushEvent.updateBranch branch head.id], .ok ())

/-! ## Schema lookup in the committed tree (`core/index/schema_reader.rs`) -/

/-- The kinds of `TreeObjectChild`. -/
inductive ChildKind where
  | file
  | dir
  | vnode
  | schema
deriving DecidableEq, Repr

/-- A child descriptor in a tree node, embedding `TreeObjectChild`: each
variant carries a path and the hash of the child object. -/
structure TreeObjectChild where
  kind : ChildKind
  path : String
  hash : String
deriving DecidableEq, Repr

/-- A tree object (Dir or VNode) as the lookup consumes it: its children
list, kept sorted by the hash of each child's path. -/
structure TreeObject where
  children : List TreeObjectChild
deriving DecidableEq, Repr

/-- Modelled from the spec: `TreeObject::binary_search_on_path`
(`core/db/tree_db.rs`, absent from the provided sources) binary-searches
the children — sorted by `hash(path)` per §4.2 — for the child at the
given path; modelled as the lookup that search computes, parameterized by
the path hasher `H` (`util::hasher::hash_pathbuf`, also external). -/
def binary_search_on_path (H : String → String) (obj : TreeObject) (p : String) :
    Option TreeObjectChild :=
  obj.children.find? (fun c => H c.path == H p)

/-- The stores `SchemaReader::get_schema_for_file` reads: the per-commit
dir-hashes db, the dir and vnode object dbs, and the versioned schema
files keyed by schema hash (`.error` marks an unreadable version file,
`.ok none` one that fails to parse). -/
structure SchemaReaderState where
  dir_hashes : String → Option String
  dirs : String → Option TreeObject
  vnodes : String → Option TreeObject
  versions : String → Except String (Option Schema)

/-- Embeds Rust `Path::parent().unwrap_or("")` for the relative paths the
schema reader handles. -/
def path_parent (p : String) : String :=
  match p.data.reverse.dropWhile (fun c => c ≠ '/') with
  | [] => ""
  | _ :: rest => ⟨rest.reverse⟩

/-- Embeds `SchemaReader::get_schema_for_file`: join the path under the
schemas tree root `.oxen` (`SCHEMAS_TREE_PREFIX`), fetch the parent dir
node through the dir-hashes db, take the first two characters of the
hashed schema path, binary-search the dir for the matching vnode, then —
as in the source — binary-search the vnode for that same two-character
prefix, and read the found child's schema from the version store.
`.error` models an `unwrap` panic on a missing db entry. -/
def get_schema_for_file (H : String → String) (st : SchemaReaderState) (path : String) :
    Except String (Option Schema) :=
  let schema_path := ".oxen" ++ "/" ++ path
  let path_parent_dir := path_parent path
  match st.dir_hashes path_parent_dir with
  | none => .error "unwrap on missing parent dir hash"
  | some parent_dir_hash =>
    match st.dirs parent_dir_hash with
    | none => .error "unwrap on missing dir object"
    | some parent_dir_obj =>
      let hash_pfx := (H schema_path).take 2
      match binary_search_on_path H parent_dir_obj hash_pfx with
      | none => .ok none
      | some vnode_child =>
        match st.vnodes vnode_child.hash with
        | none => .error "unwrap on missing vnode object"
        | some vnode =>
          match binary_search_on_path H vnode hash_pfx with
          | none => .ok none
          | some schema_child => st.versions schema_child.hash

/-- The lookup as the specification states it: identical to
`get_schema_for_file` except that step (3) binary-searches the vnode for
the entry whose path is the schema path itself, not the two-character hash
prefix. -/
def spec_get_schema_for_file (H : String → String) (st : SchemaReaderState) (path : String) :
    Except String (Option Schema) :=
  let schema_path := ".oxen" ++ "/" ++ path
  let path_parent_dir := path_parent path
  match st.dir_hashes path_parent_dir with
  | none => .error "unwrap on missing parent dir hash"
  | some parent_dir_hash =>
    match st.dirs parent_dir_hash with
    | none => .error "unwrap on missing dir object"
    | some parent_dir_obj =>
      let hash_pfx := (H schema_path).take 2
      match binary_search_on_path H parent_dir_obj hash_pfx with
      | none => .ok none
      | some vnode_child =>
        match st.vnodes vnode_child.hash with
        | none => .error "unwrap on missing vnode object"
        | some vnode =>
          match binary_search_on_path H vnode schema_path with
          | none => .ok none
          | some schema_child => st.versions schema_child.hash

/-- A concrete committed state holding one schema, for file `t.csv` with
schema path `.oxen/t.csv`: the root dir hash resolves to a dir whose only
vnode is keyed by the two-character prefix of the hashed schema path, and
that vnode holds the schema entry. The path hasher is instantiated with
the identity, under which the prefix is `.o`. -/
def exSchema : Schema :=
  { name := some "t", hash := "b821", fields := [{ name := "id", dtype := "i64" }] }

/-- The example vnode: it holds exactly the schema entry for `.oxen/t.csv`. -/
def exVNode : TreeObject :=
  { children := [{ kind := ChildKind.schema, path := ".oxen/t.csv", hash := "SH" }] }

/-- The example root dir: one vnode child keyed by the prefix `.o`. -/
def exRootDir : TreeObject :=
  { children := [{ kind := ChildKind.vnode, path := ".o", hash := "VN" }] }

/-- The example schema-reader state wiring the stores together. -/
def exState : SchemaReaderState :=
  { dir_hashes := fun p => if p = "" then some "ROOT" else none
    dirs := fun h => if h = "ROOT" then some exRootDir else none
    vnodes := fun h => if h = "VN" then some exVNode else none
    versions := fun h => if h = "SH" then .ok (some exSchema) else .error "missing version file" }

/-- The suffixes the diff output uses for a target column, determined by
which sides carry the column: `.right` alone when only the right side has
it, `.left` alone when only the left side has it, both otherwise. -/
def sides_of (sd : SchemaDiff) (t : String) : List String :=
  if sd.added_cols.contains t then [".right"]
  else if sd.removed_cols.contains t then [".left"]
  else [".left", ".right"]

/-- Whether a display column survives the side filter of
`get_output_columns`: a `.left` column must name a left-side (removed or
unchanged) column, a `.right` column a right-side (added or unchanged)
one. -/
def display_kept (sd : SchemaDiff) (c : String) : Bool :=
  (ends_with c ".left"
      && (sd.removed_cols.contains (trim_end_matches c ".left")
          || sd.unchanged_cols.contains (trim_end_matches c ".left")))
    || (ends_with c ".right"
      && (sd.added_cols.contains (trim_end_matches c ".right")
          || sd.unchanged_cols.contains (trim_end_matches c ".right")))

/-- The output column order of claim C6 as the code forces it to be
amended: keys first, then for each target its side-suffixed columns — a
`.left`/`.right` pair when both sides have the column, a single suffixed
column when one side does — then the surviving display columns, then the
status column. -/
def amended_output_columns (keys targets display : List String) (sd : SchemaDiff) :
    List String :=
  keys
    ++ targets.flatMap (fun t => (sides_of sd t).map (fun sfx => t ++ sfx))
    ++ display.filter (display_kept sd)
    ++ [DIFF_STATUS_COL]

/-! ## Theorems -/

/-- Two suffixes of equal length of the same list coincide. -/
theorem suffix_eq_of_length {α : Type _} (l p1 p2 : List α) (h1 : p1 <:+ l) (h2 : p2 <:+ l)
    (hl : p1.length = p2.length) : p1 = p2 := by
  obtain ⟨s1, rfl⟩ := h1
  obtain ⟨s2, e2⟩ := h2
  have hs : s1.length = s2.length := by
    have hlen := congrArg List.length e2
    simp only [List.length_append] at hlen
    omega
  calc p1 = (s1 ++ p1).drop s1.length := (List.drop_left s1 p1).symm
    _ = (s2 ++ p2).drop s1.length := by rw [e2]
    _ = (s2 ++ p2).drop s2.length := by rw [hs]
    _ = p2 := List.drop_left s2 p2

/-- A string cannot end in both `.left` and `.right`. -/
theorem ends_with_left_not_right (c : String) (h : ends_with c ".left" = true) :
    ends_with c ".right" = false := by
  by_contra hc
  rw [Bool.not_eq_false] at hc
  have hLs : ".left".data <:+ c.data := by
    simpa [ends_with, List.isSuffixOf_iff_suffix] using h
  have hRs : ".right".data <:+ c.data := by
    simpa [ends_with, List.isSuffixOf_iff_suffix] using hc
  have hRs' : "right".data <:+ c.data := by
    obtain ⟨s, hs⟩ := hRs
    exact ⟨s ++ ['.'], by simpa [List.append_assoc] using hs⟩
  have heq : ".left".data = "right".data :=
    suffix_eq_of_length c.data _ _ hLs hRs' (by decide)
  exact absurd heq (by decide)

/-- The display loop of `get_output_columns` keeps each display column at
most once, so it is the filter by `display_kept`. -/
theorem display_flatMap_eq_filter (sd : SchemaDiff) (display : List String) :
    display.flatMap (fun c =>
      (if ends_with c ".left" then
        let stripped := trim_end_matches c ".left"
        if sd.removed_cols.contains stripped || sd.unchanged_cols.contains stripped then [c]
        else []
      else [])
      ++
      (if ends_with c ".right" then
        let stripped := trim_end_matches c ".right"
        if sd.added_cols.contains stripped || sd.unchanged_cols.contains stripped then [c]
        else []
      else []))
      = display.filter (display_kept sd) := by
  induction display with
  | nil => rfl
  | cons c rest ih =>
    simp only [List.flatMap_cons, List.filter_cons, ih, display_kept]
    by_cases hL : ends_with c ".left" = true
    · have hR := ends_with_left_not_right c hL
      simp only [hL, hR, if_true, if_false, Bool.false_and, Bool.or_false, Bool.true_and]
      split_ifs <;> simp_all
    · simp only [Bool.not_eq_true] at hL
      by_cases hR : ends_with c ".right" = true
      · simp only [hL, hR, if_true, if_false, Bool.false_and, Bool.or_false, Bool.true_and,
          Bool.false_or]
        split_ifs <;> simp_all
      · simp only [Bool.not_eq_true] at hR
        simp [hL, hR]

/-- C10 (counterexample): the dtype string encoding does not round-trip on
the `List` variant — `as_str` renders every list as `"list"`, which
`from_string` maps to `Unknown`, so the claimed round-trip fails at
`List(Boolean)`. -/
theorem dataType_list_roundtrip_fails :
    ¬ (DataType.from_string (DataType.List DataType.Boolean).as_str
        = DataType.List DataType.Boolean) := by
  decide

/-- C10 (amended): `DataType.from_string (d.as_str) = d` for every variant
of the enum except `List`; every `List t` comes back as `Unknown`. -/
theorem dataType_roundtrip_amended (d : DataType) :
    ((∀ t, d ≠ DataType.List t) → DataType.from_string d.as_str = d) ∧
    (∀ t, d = DataType.List t → DataType.from_string d.as_str = DataType.Unknown) := by
  refine ⟨fun h => ?_, fun t ht => by subst ht; rfl⟩
  cases d <;> first | rfl | exact absurd rfl (h _)

/-- Witness for `dataType_roundtrip_amended` at `Int64` and
`List Int64`. -/
theorem dataType_roundtrip_amended_witness :
    DataType.from_string (DataType.Int64).as_str = DataType.Int64 ∧
    DataType.from_string (DataType.List DataType.Int64).as_str = DataType.Unknown :=
  ⟨(dataType_roundtrip_amended DataType.Int64).1
      (fun _ h => DataType.noConfusion h),
   (dataType_roundtrip_amended (DataType.List DataType.Int64)).2 DataType.Int64 rfl⟩

/-- C9: a schema's hash is a content hash of the fields list alone —
`Schema::new` and `Schema::from_fields` agree for every name, schemas with
equal `(name, dtype)` field sequences hash identically, and the hash is
the buffer hash of the in-order concatenation of each field's name and
dtype. -/
theorem schema_hash_content_only (hash_buffer : String → String) (name name2 : String)
    (fields fields2 : List Field)
    (hfe : fields.map (fun f => (f.name, f.dtype)) = fields2.map (fun f => (f.name, f.dtype))) :
    (Schema.new hash_buffer name fields).hash = (Schema.from_fields hash_buffer fields).hash ∧
    (Schema.new hash_buffer name fields).hash = (Schema.new hash_buffer name2 fields2).hash ∧
    (Schema.new hash_buffer name fields).hash
      = hash_buffer (String.join (fields.map (fun f => f.name ++ f.dtype))) := by
  have key : fields.map (fun f => f.name ++ f.dtype) = fields2.map (fun f => f.name ++ f.dtype) := by
    have h2 := congrArg (List.map (fun p : String × String => p.1 ++ p.2)) hfe
    simpa [List.map_map, Function.comp] using h2
  refine ⟨rfl, ?_, rfl⟩
  simp [Schema.new, Schema.hash_fields, key]

/-- Witness for `schema_hash_content_only`: a one-field schema hashed
under two different names. -/
theorem schema_hash_content_only_witness :
    (Schema.new (fun s => s) "people" [{ name := "id", dtype := "i64" }]).hash
      = (Schema.new (fun s => s) "other" [{ name := "id", dtype := "i64" }]).hash :=
  (schema_hash_content_only (fun s => s) "people" "other"
      [{ name := "id", dtype := "i64" }] [{ name := "id", dtype := "i64" }] rfl).2.1

/-- C3: `api::local::commits::commit` unstages exactly when the commit
writer succeeds — a writer error propagates with the staging state
untouched, and on success the staging tables are cleared before the commit
is returned. -/
theorem commit_unstage_exactly_on_success (w : Except String Commit) (st : StagingState) :
    (∀ e, w = .error e → commit w st = (st, .error e)) ∧
    (∀ c, w = .ok c →
      commit w st = (unstage st, .ok c) ∧ (commit w st).1.staged = []) := by
  constructor
  · rintro e rfl; rfl
  · rintro c rfl; exact ⟨rfl, rfl⟩

/-- Witness for `commit_unstage_exactly_on_success` on a staged file and a
successful writer. -/
theorem commit_unstage_exactly_on_success_witness :
    commit (.ok { id := "c1", parent_ids := [] }) { staged := ["hello.txt"] }
        = (unstage { staged := ["hello.txt"] }, .ok { id := "c1", parent_ids := [] }) ∧
    commit (.error "disk full") { staged := ["hello.txt"] }
        = ({ staged := ["hello.txt"] }, .error "disk full") :=
  ⟨((commit_unstage_exactly_on_success (.ok { id := "c1", parent_ids := [] })
      { staged := ["hello.txt"] }).2 _ rfl).1,
   (commit_unstage_exactly_on_success (.error "disk full")
      { staged := ["hello.txt"] }).1 _ rfl⟩

/-- C4: `versioner::backup_file` is a no-op when the version path exists
and its content hashes to the entry's hash, and performs the copy exactly
when the target is missing or its content hash differs (assuming the
existing target can be hashed). -/
theorem backup_file_noop_iff_hash_matches (fs : FsView) (entry : CommitEntry)
    (filepath hsh : String)
    (hh : fs.hashContents (version_path entry) = .ok hsh) :
    (fs.pathExists (version_path entry) = true ∧ hsh = entry.hash →
      backup_file fs entry filepath = []) ∧
    (FsAction.copy filepath (version_path entry) ∈ backup_file fs entry filepath ↔
      (fs.pathExists (version_path entry) = false ∨ hsh ≠ entry.hash)) := by
  by_cases hex : fs.pathExists (version_path entry) <;>
    by_cases heq : hsh = entry.hash <;>
      simp [backup_file, should_copy_entry, path_hash_is_different, hh, hex, heq]

/-- Witness for `backup_file_noop_iff_hash_matches`: an existing,
hash-matching target is left alone. -/
theorem backup_file_noop_iff_hash_matches_witness :
    backup_file
        { pathExists := fun _ => true, hashContents := fun _ => .ok "abc123" }
        { path := "hello.txt", hash := "abc123" } "hello.txt" = [] :=
  (backup_file_noop_iff_hash_matches
      { pathExists := fun _ => true, hashContents := fun _ => .ok "abc123" }
      { path := "hello.txt", hash := "abc123" } "hello.txt" "abc123" rfl).1 ⟨rfl, rfl⟩

/-- C5: evaluated on a commit that does hold a schema entry for `t.csv`,
`get_schema_for_file` returns `Ok(None)` because its second binary search
looks the vnode up by the two-character hash prefix instead of the schema
path, while the lookup the specification describes finds the stored
schema. -/
theorem get_schema_for_file_misses_existing_schema :
    get_schema_for_file (fun s => s) exState "t.csv" = .ok none ∧
    spec_get_schema_for_file (fun s => s) exState "t.csv" = .ok (some exSchema) :=
  ⟨rfl, rfl⟩

/-- C8: with both key and target lists empty the compare operation falls
back to taking every non-key column as a target and succeeds; targets
without any key are rejected with an error. -/
theorem compare_files_fallback_and_guard (all_columns keys targets : List String) :
    (keys = [] → targets = [] →
      compare_files all_columns keys targets = .ok ([], all_columns)) ∧
    (keys = [] → targets ≠ [] →
      compare_files all_columns keys targets
        = .error "Must specifiy at least one key column if specifying target columns.") := by
  constructor
  · rintro rfl rfl
    simp [compare_files]
  · rintro rfl ht
    simp [compare_files, compare_guard, ht]

/-- Witness for `compare_files_fallback_and_guard`: fallback on two
columns, and the error on a keyless target. -/
theorem compare_files_fallback_and_guard_witness :
    compare_files ["name", "age"] [] [] = .ok ([], ["name", "age"]) ∧
    compare_files ["name", "age"] [] ["age"]
      = .error "Must specifiy at least one key column if specifying target columns." :=
  ⟨(compare_files_fallback_and_guard ["name", "age"] [] []).1 rfl rfl,
   (compare_files_fallback_and_guard ["name", "age"] [] ["age"]).2 rfl (by simp)⟩

/-- C1: each joined row is classified as the spec states — a key present
only on the right (null left key) is `added`, only on the left is
`removed`, both sides with differing target hashes is `modified`, both
sides with equal target hashes is `unchanged` — and the unchanged rows are
dropped, so the result contains no `unchanged` row. -/
theorem compare_row_classification (rows : List JoinedRow) :
    (∀ ht, ∀ p ∈ compare_statuses ht rows, p.2 ≠ DIFF_STATUS_UNCHANGED) ∧
    (∀ r ∈ rows,
      (r.key_left = some AnyValue.null → row_status true r = DIFF_STATUS_ADDED) ∧
      (r.key_left ≠ some AnyValue.null → r.key_right = some AnyValue.null →
        row_status true r = DIFF_STATUS_REMOVED) ∧
      (∀ a b, r.key_left ≠ some AnyValue.null → r.key_right ≠ some AnyValue.null →
        r.target_hash_left = some a → r.target_hash_right = some b →
        (a ≠ b → row_status true r = DIFF_STATUS_MODIFIED) ∧
        (a = b → row_status true r = DIFF_STATUS_UNCHANGED ∧
          ∀ s, (r, s) ∉ compare_statuses true rows ∨ s ≠ DIFF_STATUS_UNCHANGED))) := by
  constructor
  · intro ht p hp
    have hmem := List.mem_filter.mp hp
    simpa using hmem.2
  · intro r _hr
    refine ⟨fun hl => ?_, fun hl hr2 => ?_, fun a b hl hr2 hta htb => ?_⟩
    · simp [row_status, test_function, hl]
    · simp [row_status, test_function, hl, hr2]
    · constructor
      · intro hne
        simp [row_status, test_function, hl, hr2, hta, htb, hne]
      · intro heq
        refine ⟨by simp [row_status, test_function, hl, hr2, hta, htb, heq], fun s => ?_⟩
        by_cases hs : s = DIFF_STATUS_UNCHANGED
        · subst hs
          left
          intro hmem
          have h2 := (List.mem_filter.mp hmem).2
          simp at h2
        · exact Or.inr hs

/-- Witness for `compare_row_classification` on four concrete joined rows,
one per classification. -/
theorem compare_row_classification_witness :
    row_status true
        { key_left := some AnyValue.null, key_right := some (AnyValue.int 3),
          target_hash_left := some AnyValue.null,
          target_hash_right := some (AnyValue.str "h3") } = DIFF_STATUS_ADDED ∧
    row_status true
        { key_left := some (AnyValue.int 2), key_right := some AnyValue.null,
          target_hash_left := some (AnyValue.str "h2"),
          target_hash_right := some AnyValue.null } = DIFF_STATUS_REMOVED ∧
    row_status true
        { key_left := some (AnyValue.int 1), key_right := some (AnyValue.int 1),
          target_hash_left := some (AnyValue.str "h1"),
          target_hash_right := some (AnyValue.str "h1x") } = DIFF_STATUS_MODIFIED ∧
    row_status true
        { key_left := some (AnyValue.int 4), key_right := some (AnyValue.int 4),
          target_hash_left := some (AnyValue.str "h4"),
          target_hash_right := some (AnyValue.str "h4") } = DIFF_STATUS_UNCHANGED := by
  have h1 := (compare_row_classification
      [{ key_left := some AnyValue.null, key_right := some (AnyValue.int 3),
         target_hash_left := some AnyValue.null,
         target_hash_right := some (AnyValue.str "h3") }]).2
      { key_left := some AnyValue.null, key_right := some (AnyValue.int 3),
        target_hash_left := some AnyValue.null,
        target_hash_right := some (AnyValue.str "h3") } (by simp)
  have h2 := (compare_row_classification
      [{ key_left := some (AnyValue.int 2), key_right := some AnyValue.null,
         target_hash_left := some (AnyValue.str "h2"),
         target_hash_right := some AnyValue.null }]).2
      { key_left := some (AnyValue.int 2), key_right := some AnyValue.null,
        target_hash_left := some (AnyValue.str "h2"),
        target_hash_right := some AnyValue.null } (by simp)
  have h3 := (compare_row_classification
      [{ key_left := some (AnyValue.int 1), key_right := some (AnyValue.int 1),
         target_hash_left := some (AnyValue.str "h1"),
         target_hash_right := some (AnyValue.str "h1x") }]).2
      { key_left := some (AnyValue.int 1), key_right := some (AnyValue.int 1),
        target_hash_left := some (AnyValue.str "h1"),
        target_hash_right := some (AnyValue.str "h1x") } (by simp)
  have h4 := (compare_row_classification
      [{ key_left := some (AnyValue.int 4), key_right := some (AnyValue.int 4),
         target_hash_left := some (AnyValue.str "h4"),
         target_hash_right := some (AnyValue.str "h4") }]).2
      { key_left := some (AnyValue.int 4), key_right := some (AnyValue.int 4),
        target_hash_left := some (AnyValue.str "h4"),
        target_hash_right := some (AnyValue.str "h4") } (by simp)
  refine ⟨h1.1 rfl, h2.2.1 (by simp) rfl, ?_, ?_⟩
  · exact ((h3.2.2 (AnyValue.str "h1") (AnyValue.str "h1x")
      (by simp) (by simp) rfl rfl).1 (by simp))
  · exact ((h4.2.2 (AnyValue.str "h4") (AnyValue.str "h4")
      (by simp) (by simp) rfl rfl).2 rfl).1

/-- Transitivity of `lexLe`. -/
theorem lexLe_trans : ∀ a b c, lexLe a b = true → lexLe b c = true → lexLe a c = true := by
  intro a
  induction a with
  | nil => intro b c _ _; rfl
  | cons x xs ih =>
    intro b c hab hbc
    cases b with
    | nil => simp [lexLe] at hab
    | cons y ys =>
      cases c with
      | nil => simp [lexLe] at hbc
      | cons z zs =>
        simp only [lexLe] at hab hbc ⊢
        by_cases h1 : x < y
        · by_cases h2 : y < z
          · simp [lt_trans h1 h2]
          · by_cases h2' : z < y
            · simp [h2, h2'] at hbc
            · have hyz : y = z := le_antisymm (not_lt.mp h2') (not_lt.mp h2)
              subst hyz
              simp [h1]
        · by_cases h1' : y < x
          · simp [h1, h1'] at hab
          · have hxy : x = y := le_antisymm (not_lt.mp h1') (not_lt.mp h1)
            subst hxy
            simp only [lt_irrefl, if_false] at hab
            by_cases h2 : x < z
            · simp [h2]
            · by_cases h2' : z < x
              · simp [h2, h2'] at hbc
              · have hxz : x = z := le_antisymm (not_lt.mp h2') (not_lt.mp h2)
                subst hxz
                simp only [lt_irrefl, if_false] at hbc ⊢
                exact ih ys zs hab hbc

/-- Totality of `lexLe`. -/
theorem lexLe_total : ∀ a b, (lexLe a b || lexLe b a) = true := by
  intro a
  induction a with
  | nil => intro b; simp [lexLe]
  | cons x xs ih =>
    intro b
    cases b with
    | nil => simp [lexLe]
    | cons y ys =>
      simp only [lexLe]
      by_cases h1 : x < y
      · simp [h1]
      · by_cases h2 : y < x
        · simp [h1, h2]
        · simpa [h1, h2] using ih ys

/-- C6 (counterexample): for key `id` and target `age` present on both
sides, the code emits the pair `age.left`/`age.right`, not the single
merged `age` column the claim describes. -/
theorem output_columns_merged_claim_false :
    get_output_columns ["id"] ["age"] []
        { added_cols := [], removed_cols := [], unchanged_cols := ["id", "age"] }
      ≠ claimed_output_columns ["id"] ["age"] []
        { added_cols := [], removed_cols := [], unchanged_cols := ["id", "age"] } := by
  decide

/-- C6 (amended): the output columns are the key columns, then for each
target a `.left`/`.right` pair when both sides carry it and a single
side-suffixed column when only one side does, then the surviving display
columns, then the status column; and the rows are sorted ascending by the
key columns (the sort is issued with an all-false `descending` vector and
yields an ordered permutation of the rows). -/
theorem output_columns_order_amended (keys targets display : List String) (sd : SchemaDiff)
    (rows : List (List Int)) :
    get_output_columns keys targets display sd = amended_output_columns keys targets display sd ∧
    compare_sort_descending keys = List.replicate keys.length false ∧
    (compare_sort_rows rows).Pairwise (fun a b => lexLe a b = true) ∧
    (compare_sort_rows rows).Perm rows := by
  refine ⟨?_, ?_, ?_, List.mergeSort_perm rows lexLe⟩
  · unfold get_output_columns amended_output_columns
    rw [display_flatMap_eq_filter]
    have hT : ∀ t : String,
        (if sd.added_cols.contains t then [t ++ ".right"]
         else if sd.removed_cols.contains t then [t ++ ".left"]
         else [t ++ ".left", t ++ ".right"])
          = (sides_of sd t).map (fun sfx => t ++ sfx) := by
      intro t
      unfold sides_of
      split_ifs <;> rfl
    rw [List.flatMap_congr (fun t _ => hT t)]
  · simp [compare_sort_descending, List.map_const']
  · exact List.sorted_mergeSort lexLe_trans lexLe_total rows

/-- The number of chunks is the ceiling of the payload size over the chunk
size. -/
theorem chunksOf_length {α : Type _} (size : Nat) (hsz : 0 < size) (l : List α) :
    (chunksOf size l).length = (l.length + size - 1) / size := by
  match l, size with
  | [], size =>
    simp only [chunksOf, List.length_nil, Nat.zero_add]
    rw [Nat.div_eq_of_lt (by omega)]
  | x :: xs, n + 1 =>
    have ih := chunksOf_length (n + 1) hsz ((x :: xs).drop (n + 1))
    rw [chunksOf]
    simp only [List.length_cons, List.length_drop] at ih ⊢
    rw [ih]
    rcases le_or_lt (xs.length + 1) (n + 1) with hle | hlt
    · have h0 : xs.length + 1 - (n + 1) = 0 := by omega
      have hr : (xs.length + 1 + (n + 1) - 1) / (n + 1) = 1 :=
        Nat.div_eq_of_lt_le (by omega) (by omega)
      rw [h0, hr, Nat.div_eq_of_lt (by omega)]
    · have h1 : xs.length + 1 - (n + 1) + (n + 1) - 1 = (xs.length + 1 - 1) := by omega
      have h2 : xs.length + 1 + (n + 1) - 1 = (xs.length + 1 - 1) + (n + 1) := by omega
      rw [h1, h2, Nat.add_div_right _ hsz]
termination_by l.length
decreasing_by
  simp only [List.length_drop, List.length_cons]
  omega

/-- The `i`-th chunk is the `i`-th `size`-aligned slice of the payload. -/
theorem chunksOf_getElem? {α : Type _} (size : Nat) (hsz : 0 < size) (l : List α) (i : Nat) :
    (chunksOf size l)[i]?
      = if i * size < l.length then some ((l.drop (i * size)).take size) else none := by
  match l, size, i with
  | [], size, i => simp [chunksOf]
  | x :: xs, n + 1, 0 => simp [chunksOf]
  | x :: xs, n + 1, i + 1 =>
    have ih := chunksOf_getElem? (n + 1) hsz ((x :: xs).drop (n + 1)) i
    rw [chunksOf]
    simp only [List.getElem?_cons_succ, ih, List.length_drop, List.drop_drop,
      List.length_cons]
    have harith : (n + 1) + i * (n + 1) = (i + 1) * (n + 1) := by ring
    rw [harith]
    by_cases hcond : (i + 1) * (n + 1) < xs.length + 1
    · rw [if_pos (by omega), if_pos hcond]
    · rw [if_neg (by omega), if_neg hcond]
termination_by l.length
decreasing_by
  simp only [List.length_drop, List.length_cons]
  omega

/-- C7: a payload of at most 4 MiB is posted as one single unchunked
upload; a larger payload is split into successive 4 MiB chunks (the last
holding the remainder), each posted with its chunk number, the total size,
the content hash of the whole payload, the chunk count and the compression
flag in the query string and the raw chunk bytes as the body. -/
theorem post_data_to_server_chunking (hash_buffer : List Nat → String)
    (urlenc : String → String) (commit_id : String) (buffer : List Nat)
    (filename : Option String) :
    (buffer.length ≤ chunk_size_const →
      post_data_to_server hash_buffer urlenc commit_id buffer true filename
        = some [UploadReq.single commit_id buffer]) ∧
    (chunk_size_const < buffer.length →
      ∃ reqs,
        post_data_to_server hash_buffer urlenc commit_id buffer true filename = some reqs ∧
        reqs.length = (buffer.length + chunk_size_const - 1) / chunk_size_const ∧
        (∀ i, i < reqs.length →
          reqs[i]? = some (UploadReq.chunk
            ("/commits/" ++ commit_id ++ "/upload_chunk?chunk_num=" ++ toString i
              ++ "&total_size=" ++ toString buffer.length
              ++ "&hash=" ++ hash_buffer buffer
              ++ "&total_chunks=" ++ toString reqs.length
              ++ "&is_compressed=" ++ "true")
            ((buffer.drop (i * chunk_size_const)).take chunk_size_const))) ∧
        (∀ i, i + 1 < reqs.length →
          ((buffer.drop (i * chunk_size_const)).take chunk_size_const).length
            = chunk_size_const) ∧
        ((buffer.drop ((reqs.length - 1) * chunk_size_const)).take chunk_size_const).length
          = buffer.length - (reqs.length - 1) * chunk_size_const) := by
  have hpos : 0 < chunk_size_const := by norm_num [chunk_size_const]
  constructor
  · intro h
    simp only [post_data_to_server]
    rw [if_neg (by omega)]
  · intro h
    simp only [post_data_to_server]
    rw [if_pos (by omega)]
    simp only [upload_data_to_server_in_chunks, maybe_filename_param, Bool.not_true,
      Bool.false_eq_true, if_false]
    refine ⟨_, rfl, ?_, ?_, ?_, ?_⟩
    · simp only [List.length_map, List.enum_length]
      exact chunksOf_length chunk_size_const hpos buffer
    · intro i hi
      have hlen : ((chunksOf chunk_size_const buffer).enum.map fun p =>
          UploadReq.chunk
            (upload_chunk_uri commit_id
              { chunk_num := p.1, total_chunks := (chunksOf chunk_size_const buffer).length,
                total_size := buffer.length, num_retries := 3 }
              (hash_buffer buffer) true "") p.2).length
          = (chunksOf chunk_size_const buffer).length := by
        simp [List.length_map, List.enum_length]
      rw [hlen, chunksOf_length chunk_size_const hpos buffer]
      rw [List.getElem?_map, List.getElem?_enum, chunksOf_getElem? _ hpos buffer i]
      rw [hlen] at hi
      rw [chunksOf_length chunk_size_const hpos buffer] at hi
      have hi' : i * chunk_size_const < buffer.length := by
        simp only [chunk_size_const] at hi ⊢
        omega
      rw [if_pos hi']
      simp only [Option.map_some']
      congr 1
      simp only [upload_chunk_uri, chunksOf_length chunk_size_const hpos buffer,
        if_true, String.append_empty]
    · intro i hi
      simp only [List.length_map, List.enum_length,
        chunksOf_length chunk_size_const hpos buffer] at hi
      simp only [List.length_take, List.length_drop]
      simp only [chunk_size_const] at hi ⊢
      omega
    · simp only [List.length_map, List.enum_length,
        chunksOf_length chunk_size_const hpos buffer]
      simp only [List.length_take, List.length_drop]
      simp only [chunk_size_const] at h ⊢
      omega

/-- Witness for `post_data_to_server_chunking`: a 3-byte payload goes up
as a single post, and a payload one byte over 4 MiB is split into two
chunks. -/
theorem post_data_to_server_chunking_witness :
    post_data_to_server (fun _ => "H") (fun s => s) "c1" [7, 8, 9] true none
        = some [UploadReq.single "c1" [7, 8, 9]] ∧
    ∃ reqs,
      post_data_to_server (fun _ => "H") (fun s => s) "c1"
          (List.replicate (chunk_size_const + 1) 0) true none = some reqs ∧
      reqs.length = 2 := by
  constructor
  · exact (post_data_to_server_chunking (fun _ => "H") (fun s => s) "c1" [7, 8, 9] none).1
      (by norm_num [chunk_size_const])
  · obtain ⟨reqs, h1, h2, -, -, -⟩ :=
      (post_data_to_server_chunking (fun _ => "H") (fun s => s) "c1"
        (List.replicate (chunk_size_const + 1) 0) none).2 (by simp)
    refine ⟨reqs, h1, ?_⟩
    rw [h2]
    simp only [List.length_replicate]
    norm_num [chunk_size_const]

/-- Every event the parent walk emits is a commit post. -/
theorem rpush_parents_events_post (env : PushEnv)
    (rec : Commit → List PushEvent × Except String (List Commit))
    (hrec : ∀ cc e, e ∈ (rec cc).1 → ∃ id, e = PushEvent.postCommit id) (c : Commit) :
    ∀ ps e, e ∈ (rpush_parents env rec c ps).1 → ∃ id, e = PushEvent.postCommit id := by
  intro ps
  induction ps with
  | nil => intro e he; simp [rpush_parents] at he
  | cons pid rest ih =>
    intro e he
    simp only [rpush_parents] at he
    split at he
    · simp at he
    · rename_i parent hcp
      split at he
      · rename_i es1 err hrp
        exact hrec parent e (by rw [hrp]; simpa using he)
      · rename_i es1 q1 hrp
        split at he
        · split at he
          · rename_i hpo es2 err2 hrr
            have hmem : e ∈ es1 ++ [PushEvent.postCommit c.id] ++ es2 := by simpa using he
            rcases List.mem_append.mp hmem with hmem1 | hmem2
            · rcases List.mem_append.mp hmem1 with hmem1a | hmem1b
              · exact hrec parent e (by rw [hrp]; simpa using hmem1a)
              · exact ⟨c.id, List.mem_singleton.mp hmem1b⟩
            · exact ih e (by rw [hrr]; simpa using hmem2)
          · rename_i hpo es2 q2 hrr
            have hmem : e ∈ es1 ++ [PushEvent.postCommit c.id] ++ es2 := by simpa using he
            rcases List.mem_append.mp hmem with hmem1 | hmem2
            · rcases List.mem_append.mp hmem1 with hmem1a | hmem1b
              · exact hrec parent e (by rw [hrp]; simpa using hmem1a)
              · exact ⟨c.id, List.mem_singleton.mp hmem1b⟩
            · exact ih e (by rw [hrr]; simpa using hmem2)
        · have hmem : e ∈ es1 ++ [PushEvent.postCommit c.id] := by simpa using he
          rcases List.mem_append.mp hmem with hmem1 | hmem2
          · exact hrec parent e (by rw [hrp]; simpa using hmem1)
          · exact ⟨c.id, List.mem_singleton.mp hmem2⟩

/-- Every event the missing-commit walk emits is a commit post. -/
theorem rpush_missing_events_post (env : PushEnv) :
    ∀ fuel c e, e ∈ (rpush_missing_commit_objects env fuel c).1 →
      ∃ id, e = PushEvent.postCommit id := by
  intro fuel
  induction fuel with
  | zero => intro c e he; simp [rpush_missing_commit_objects] at he
  | succ n ih =>
    intro c e he
    simp only [rpush_missing_commit_objects] at he
    split at he
    · simp at he
    · split at he
      · split at he <;> · simp at he; exact ⟨c.id, he⟩
      · exact rpush_parents_events_post env _ (fun cc => ih cc) c c.parent_ids e he

/-- Every event the entry walk emits is an entry push. -/
theorem rpush_entries_events (env : PushEnv) :
    ∀ cs last e, e ∈ rpush_entries env last cs → ∃ id, e = PushEvent.pushEntries id := by
  intro cs
  induction cs with
  | nil => intro last e he; simp [rpush_entries] at he
  | cons c rest ih =>
    intro last e he
    simp only [rpush_entries] at he
    rcases List.mem_append.mp he with h1 | h2
    · by_cases hne : env.unsynced_entries last.id c.id = []
      · simp [hne] at h1
      · simp only [hne, if_false] at h1
        exact ⟨c.id, List.mem_singleton.mp h1⟩
    · exact ih c e h2

/-- When the local branch and the remote check out, a push is the
missing-commit walk followed by the queue handling. -/
theorem push_eq (env : PushEnv) (fuel : Nat) (branch : String) (head : Commit)
    (hb : env.has_branch branch = true) (hr : env.remote_ok = true) :
    push env fuel branch head
      = match rpush_missing_commit_objects env fuel head with
        | (es1, .error e) => (es1, .error e)
        | (es1, .ok []) => (es1, .error "unwrap on empty queue")
        | (es1, .ok (last :: rest)) =>
          (es1 ++ rpush_entries env last rest ++ [PushEvent.updateBranch branch head.id],
            .ok ()) := by
  unfold push
  rw [if_neg (by simp [hb]), if_neg (by simp [hr])]
  rcases rpush_missing_commit_objects env fuel head with ⟨es1, r1⟩
  cases r1 with
  | error e => rfl
  | ok queue => cases queue <;> rfl

/-- C2: a push posts the missing commit records first, then pushes the
unsynced entry content, and updates the remote branch to the head commit
as the very last operation; on any failure the branch update is never
reached. -/
theorem push_branch_update_last (env : PushEnv) (fuel : Nat) (branch : String) (head : Commit) :
    ((push env fuel branch head).2 = .ok () →
      ∃ es1 es2,
        (push env fuel branch head).1
          = es1 ++ es2 ++ [PushEvent.updateBranch branch head.id] ∧
        (∀ e ∈ es1, ∃ id, e = PushEvent.postCommit id) ∧
        (∀ e ∈ es2, ∃ id, e = PushEvent.pushEntries id)) ∧
    (∀ err, (push env fuel branch head).2 = .error err →
      ∀ b cid, PushEvent.updateBranch b cid ∉ (push env fuel branch head).1) := by
  have hposts := rpush_missing_events_post env fuel head
  by_cases hb : env.has_branch branch = true
  · by_cases hr : env.remote_ok = true
    · rw [push_eq env fuel branch head hb hr]
      rcases hm : rpush_missing_commit_objects env fuel head with ⟨es1, r1⟩
      rw [hm] at hposts
      constructor
      · intro hok
        cases r1 with
        | error e => simp at hok
        | ok queue =>
          cases queue with
          | nil => simp at hok
          | cons last rest =>
            exact ⟨es1, rpush_entries env last rest, by simp,
              fun e he => hposts e he,
              fun e he => rpush_entries_events env rest last e he⟩
      · intro err herr b cid hmem
        cases r1 with
        | error e =>
          obtain ⟨id, heq⟩ := hposts _ (by simpa using hmem)
          exact PushEvent.noConfusion heq
        | ok queue =>
          cases queue with
          | nil =>
            obtain ⟨id, heq⟩ := hposts _ (by simpa using hmem)
            exact PushEvent.noConfusion heq
          | cons last rest => simp at herr
    · have hp : push env fuel branch head = ([], .error "remote repo not found") := by
        unfold push
        rw [if_neg (by simp [hb]), if_pos (by simpa using hr)]
      rw [hp]
      exact ⟨by simp, fun err _ b cid hmem => by simp at hmem⟩
  · have hp : push env fuel branch head = ([], .error "local branch not found") := by
      unfold push
      rw [if_pos (by simpa using hb)]
    rw [hp]
    exact ⟨by simp, fun err _ b cid hmem => by simp at hmem⟩

/-- Witness for `push_branch_update_last`: a head commit the remote
already knows yields exactly the final branch update. -/
theorem push_branch_update_last_witness :
    ∃ es1 es2,
      (push
        { commits := fun _ => none, has_branch := fun _ => true, remote_ok := true,
          commit_is_synced := fun _ => true, post_commit_ok := fun _ => true,
          unsynced_entries := fun _ _ => [] }
        1 "main" { id := "c1", parent_ids := [] }).1
        = es1 ++ es2 ++ [PushEvent.updateBranch "main" "c1"] ∧
      (∀ e ∈ es1, ∃ id, e = PushEvent.postCommit id) ∧
      (∀ e ∈ es2, ∃ id, e = PushEvent.pushEntries id) :=
  (push_branch_update_last
      { commits := fun _ => none, has_branch := fun _ => true, remote_ok := true,
        commit_is_synced := fun _ => true, post_commit_ok := fun _ => true,
        unsynced_entries := fun _ _ => [] }
      1 "main" { id := "c1", parent_ids := [] }).1
    (by simp [push, rpush_missing_commit_objects])

end Oxen
